import Mathlib

/-!
# Verification of the Tobiichi trie-based matching engine

Shallow embedding of the Go package `tree` (files `match/tree.go` and the
"common nodes" file defining `ListItem`, the binary-search selection
functions `GE`/`LE`/`GEs`/`LEs`/`InRange`, `groupBy`, `SortedNodeBuilder`,
`MapNodeBuilder`, `UniqueMapNode`), together with proofs about the
claims of the specification.

Conventions of the embedding:
* Go slices become `List`; Go's `(value, ok bool)` returns become `Option`;
  a Go operation that can panic (the slice expression `l[leftIdx:rightIdx]`
  in `InRange`, which aborts when `leftIdx > rightIdx`) returns `Option`
  with `none` for the panic.
* Go's stdlib `sort.Search` (binary search) is embedded as `sortSearch`
  with an explicit step-count (`fuel`) so that it is structurally
  recursive; the fuel equals the initial width of the interval, which is
  provably sufficient, so no behaviour is lost.
* The generic key type `K` (`cmp.Ordered` in Go) becomes a `LinearOrder`.
-/

namespace Tobiichi

/-- One step-bounded version of the loop of Go's `sort.Search`:
`i, j := 0, n; for i < j { h := (i+j)/2; if !f(h) { i = h+1 } else { j = h } }; return i`.
The `fuel` argument only makes the recursion structural; `fuel ≥ j - i`
is always sufficient for the loop to finish (proved below). -/
def searchAux (f : Nat → Bool) : Nat → Nat → Nat → Nat
  | 0, i, _ => i
  | fuel + 1, i, j =>
    if i < j then
      let h := (i + j) / 2
      if f h then searchAux f fuel i h else searchAux f fuel (h + 1) j
    else i

/-- Embedding of Go `sort.Search(n, f)`: the smallest index `i` in `[0, n)`
with `f i = true` (assuming `f` monotone), else `n`. -/
def sortSearch (n : Nat) (f : Nat → Bool) : Nat :=
  searchAux f n 0 n

/-- The loop of `sort.Search` keeps `i` below `j`. -/
theorem searchAux_le (f : Nat → Bool) :
    ∀ fuel i j, i ≤ j → i ≤ searchAux f fuel i j ∧ searchAux f fuel i j ≤ j := by
  intro fuel
  induction fuel with
  | zero => intro i j hij; exact ⟨Nat.le_refl i, hij⟩
  | succ fuel ih =>
    intro i j hij
    simp only [searchAux]
    by_cases hlt : i < j
    · rw [if_pos hlt]
      by_cases hf : f ((i + j) / 2) = true
      · rw [if_pos hf]
        have hm : i ≤ (i + j) / 2 := by omega
        have := ih i ((i + j) / 2) hm
        exact ⟨this.1, Nat.le_trans this.2 (by omega)⟩
      · rw [if_neg hf]
        have hm : (i + j) / 2 + 1 ≤ j := by omega
        have := ih ((i + j) / 2 + 1) j hm
        exact ⟨Nat.le_trans (by omega) this.1, this.2⟩
    · rw [if_neg hlt]
      exact ⟨Nat.le_refl i, hij⟩

/-- Full specification of the `sort.Search` loop for a monotone predicate:
given enough fuel, the result `r` satisfies `i ≤ r ≤ j`, every index below
`r` fails the predicate, and `r` itself satisfies it unless `r = j`. -/
theorem searchAux_spec (f : Nat → Bool)
    (hmono : ∀ a b, a ≤ b → f a = true → f b = true) :
    ∀ fuel i j, i ≤ j → j - i ≤ fuel →
      i ≤ searchAux f fuel i j ∧ searchAux f fuel i j ≤ j ∧
      (∀ k, i ≤ k → k < searchAux f fuel i j → f k = false) ∧
      (searchAux f fuel i j < j → f (searchAux f fuel i j) = true) := by
  intro fuel
  induction fuel with
  | zero =>
    intro i j hij hfuel
    have hj : i = j := by omega
    subst hj
    simp only [searchAux]
    exact ⟨Nat.le_refl i, Nat.le_refl i, fun k hk1 hk2 => absurd hk2 (by omega),
      fun h => absurd h (by omega)⟩
  | succ fuel ih =>
    intro i j hij hfuel
    simp only [searchAux]
    by_cases hlt : i < j
    · rw [if_pos hlt]
      by_cases hf : f ((i + j) / 2) = true
      · rw [if_pos hf]
        have hm1 : i ≤ (i + j) / 2 := by omega
        have hm2 : (i + j) / 2 < j := by omega
        have hrec := ih i ((i + j) / 2) hm1 (by omega)
        refine ⟨hrec.1, Nat.le_trans hrec.2.1 (by omega), hrec.2.2.1, ?_⟩
        intro _
        rcases Nat.lt_or_ge (searchAux f fuel i ((i + j) / 2)) ((i + j) / 2) with h | h
        · exact hrec.2.2.2 h
        · have heq : searchAux f fuel i ((i + j) / 2) = (i + j) / 2 := by
            have := hrec.2.1; omega
          rw [heq]; exact hf
      · rw [if_neg hf]
        have hm1 : i ≤ (i + j) / 2 := by omega
        have hm2 : (i + j) / 2 < j := by omega
        have hrec := ih ((i + j) / 2 + 1) j (by omega) (by omega)
        refine ⟨by omega, hrec.2.1, ?_, hrec.2.2.2⟩
        intro k hk1 hk2
        rcases Nat.lt_or_ge k ((i + j) / 2 + 1) with h | h
        · by_contra hcon
          have hk : f k = true := by
            cases hfk : f k with
            | false => exact absurd hfk hcon
            | true => rfl
          exact hf (hmono k ((i + j) / 2) (by omega) hk)
        · exact hrec.2.2.1 k h hk2
    · rw [if_neg hlt]
      exact ⟨Nat.le_refl i, hij, fun k hk1 hk2 => absurd hk2 (by omega),
        fun h => absurd h hlt⟩

/-- Specification of `sortSearch` for a monotone predicate: least index in
`[0, n)` satisfying `f`, else `n`. -/
theorem sortSearch_spec (n : Nat) (f : Nat → Bool)
    (hmono : ∀ a b, a ≤ b → f a = true → f b = true) :
    sortSearch n f ≤ n ∧
    (∀ k, k < sortSearch n f → f k = false) ∧
    (sortSearch n f < n → f (sortSearch n f) = true) := by
  have h := searchAux_spec f hmono n 0 n (Nat.zero_le n) (by omega)
  exact ⟨h.2.1, fun k hk => h.2.2.1 k (Nat.zero_le k) hk, h.2.2.2⟩

/-- `sortSearch` never exceeds `n` (no monotonicity needed). -/
theorem sortSearch_le (n : Nat) (f : Nat → Bool) : sortSearch n f ≤ n :=
  (searchAux_le f n 0 n (Nat.zero_le n)).2

/-- Go `ListItem[K cmp.Ordered, V any]`: a sortable key paired with a value. -/
structure ListItem (K V : Type) where
  key : K
  val : V
  deriving DecidableEq, Repr

variable {K V : Type} [LinearOrder K]

/-- The index predicate closure passed to `sort.Search` by
`findLeftBound`/`findRightBound`: element predicate `p` read at index `i`.
`sort.Search` only ever evaluates it at indices `< len l`, so the value on
an out-of-range index (chosen `true` here) is irrelevant. -/
def idxPred {α : Type} (l : List α) (p : α → Bool) : Nat → Bool := fun i =>
  match l[i]? with
  | some it => p it
  | none => true

/-- `findLeftBound`: index of the first element whose key is `≥ key`
(`sort.Search(len(l), func(i) \x7b return l[i].Key >= key \x7d)`). -/
def findLeftBound (l : List (ListItem K V)) (key : K) : Nat :=
  sortSearch l.length (idxPred l fun it => decide (key ≤ it.key))

/-- `findRightBound`: index of the last element whose key is `≤ key`
(`sort.Search` for the first key `> key`, minus one — possibly `-1`,
hence the `Int` result, exactly as Go's `int`). -/
def findRightBound (l : List (ListItem K V)) (key : K) : Int :=
  (sortSearch l.length (idxPred l fun it => decide (it.key > key)) : Int) - 1

theorem findLeftBound_le (l : List (ListItem K V)) (key : K) :
    findLeftBound l key ≤ l.length :=
  sortSearch_le _ _

theorem findRightBound_lt (l : List (ListItem K V)) (key : K) :
    findRightBound l key < l.length := by
  have h := sortSearch_le l.length (idxPred l fun it => decide (it.key > key))
  unfold findRightBound
  omega

/-- Go `GE`: first element with key `≥ key`, as an `Option`
(`(res V, ok bool)` in Go). -/
def GE (key : K) (l : List (ListItem K V)) : Option V :=
  if h : findLeftBound l key < l.length then
    some (l.get ⟨findLeftBound l key, h⟩).val
  else none

/-- Go `LE`: last element with key `≤ key`, as an `Option`. -/
def LE (key : K) (l : List (ListItem K V)) : Option V :=
  if h : 0 ≤ findRightBound l key then
    some ((l.get ⟨(findRightBound l key).toNat, by
      have := findRightBound_lt l key; omega⟩).val)
  else none

/-- Go `GEs`: all elements with key `≥ key` (the slice `l[idx:]`). -/
def GEs (key : K) (l : List (ListItem K V)) : List V :=
  (l.drop (findLeftBound l key)).map (·.val)

/-- Go `LEs`: all elements with key `≤ key` (the slice `l[:idx+1]`,
or nothing when `idx < 0`). -/
def LEs (key : K) (l : List (ListItem K V)) : List V :=
  if 0 ≤ findRightBound l key then
    (l.take ((findRightBound l key).toNat + 1)).map (·.val)
  else []

/-- Go `InRange`: all elements with key in `[left, right)` — the slice
`l[leftIdx:rightIdx]`.  In Go this slice expression panics when
`leftIdx > rightIdx`; the panic is modelled by `none`. -/
def InRange (left right : K) (l : List (ListItem K V)) : Option (List V) :=
  if findLeftBound l left ≤ findLeftBound l right then
    some (((l.drop (findLeftBound l left)).take
      (findLeftBound l right - findLeftBound l left)).map (·.val))
  else none

/-- Go `PickOneWrapper`: wraps a single-value lookup into a multi-value one. -/
def PickOneWrapper (obj : K → List (ListItem K V) → Option V) :
    K → List (ListItem K V) → List V :=
  fun k li =>
    match obj k li with
    | some val => [val]
    | none => []

/-- The keys of the list are sorted ascending (the invariant established by
`SortedNodeBuilder.Load`, which sorts the distinct group keys). -/
def KeysSorted (l : List (ListItem K V)) : Prop :=
  l.Pairwise fun a b => a.key ≤ b.key

instance (l : List (ListItem K V)) : Decidable (KeysSorted l) :=
  inferInstanceAs (Decidable (l.Pairwise fun a b : ListItem K V => a.key ≤ b.key))

theorem keysSorted_cons {a : ListItem K V} {t : List (ListItem K V)} :
    KeysSorted (a :: t) ↔ (∀ b ∈ t, a.key ≤ b.key) ∧ KeysSorted t :=
  List.pairwise_cons

/-- `List.find?` returns the element sitting at index `findIdx`. -/
theorem find?_eq_getElem?_findIdx {α : Type} (l : List α) (p : α → Bool) :
    l.find? p = l[l.findIdx p]? := by
  induction l with
  | nil => rfl
  | cons a t ih =>
    by_cases ha : p a
    · simp [List.find?_cons_of_pos _ ha, List.findIdx_cons, ha]
    · have ha' : p a = false := by simpa using ha
      simp [List.find?_cons_of_neg _ ha, List.findIdx_cons, ha', ih]

/-- The element at `findIdx` satisfies the predicate (when in range). -/
theorem findIdx_get_true {α : Type} (p : α → Bool) (l : List α)
    (w : l.findIdx p < l.length) : p (l.get ⟨l.findIdx p, w⟩) = true := by
  have h := find?_eq_getElem?_findIdx l p
  rw [List.getElem?_eq_getElem w] at h
  have := List.find?_some h
  simpa [List.get_eq_getElem] using this

/-- Elements before `findIdx` fail the predicate. -/
theorem findIdx_not_of_lt {α : Type} (p : α → Bool) :
    ∀ (l : List α) (i : Nat) (hi : i < l.length), i < l.findIdx p →
      p (l.get ⟨i, hi⟩) = false := by
  intro l
  induction l with
  | nil => intro i hi _; simp at hi
  | cons a t ih =>
    intro i hi hlt
    by_cases ha : p a = true
    · rw [List.findIdx_cons, ha, cond_true] at hlt
      omega
    · have ha' : p a = false := by simpa using ha
      rw [List.findIdx_cons, ha', cond_false] at hlt
      cases i with
      | zero => simpa using ha'
      | succ j =>
        rw [List.length_cons] at hi
        have := ih j (by omega) (by omega)
        simpa [List.get_eq_getElem] using this

/-- A pointwise-stronger predicate is first satisfied no earlier. -/
theorem findIdx_le_findIdx_of_imp {α : Type} (l : List α) (p q : α → Bool)
    (h : ∀ x, q x = true → p x = true) : l.findIdx p ≤ l.findIdx q := by
  induction l with
  | nil => simp [List.findIdx_nil]
  | cons a t ih =>
    rw [List.findIdx_cons, List.findIdx_cons]
    by_cases hq : q a
    · simp [h a hq, hq]
    · have hq' : q a = false := by simpa using hq
      rw [hq', cond_false]
      cases hp : p a with
      | true => rw [cond_true]; exact Nat.zero_le _
      | false => rw [cond_false]; exact Nat.succ_le_succ ih

/-- For a predicate monotone along the list, Go's binary search
(`sort.Search`) computes exactly the first index satisfying it —
i.e. it agrees with a linear scan. -/
theorem sortSearch_eq_findIdx {α : Type} (l : List α) (p : α → Bool)
    (hmono : ∀ i j (hi : i < l.length) (hj : j < l.length), i ≤ j →
      p (l.get ⟨i, hi⟩) = true → p (l.get ⟨j, hj⟩) = true) :
    sortSearch l.length (idxPred l p) = l.findIdx p := by
  set f : Nat → Bool := idxPred l p with hfdef
  have hfval : ∀ i (hi : i < l.length), f i = p (l.get ⟨i, hi⟩) := by
    intro i hi
    simp [hfdef, idxPred, List.getElem?_eq_getElem hi]
  have hfmono : ∀ a b, a ≤ b → f a = true → f b = true := by
    intro a b hab ha
    by_cases hb : b < l.length
    · have haL : a < l.length := Nat.lt_of_le_of_lt hab hb
      rw [hfval b hb]
      rw [hfval a haL] at ha
      exact hmono a b haL hb hab ha
    · simp [hfdef, idxPred, List.getElem?_eq_none (Nat.le_of_not_lt hb)]
  have hs := sortSearch_spec l.length f hfmono
  rcases Nat.lt_trichotomy (sortSearch l.length f) (l.findIdx p) with h | h | h
  · exfalso
    have hlen : sortSearch l.length f < l.length :=
      Nat.lt_of_lt_of_le h (List.findIdx_le_length p)
    have htrue := hs.2.2 hlen
    rw [hfval _ hlen] at htrue
    have hfalse := List.not_of_lt_findIdx h
    simp only [List.get_eq_getElem] at htrue
    rw [htrue] at hfalse
    cases hfalse
  · exact h
  · exfalso
    have hlen : l.findIdx p < l.length := Nat.lt_of_lt_of_le h hs.1
    have htrue : p (l.get ⟨l.findIdx p, hlen⟩) = true :=
      findIdx_get_true p l hlen
    have hfalse := hs.2.1 _ h
    rw [hfval _ hlen, htrue] at hfalse
    cases hfalse

/-- On a sorted list, `findLeftBound` is the first index with key `≥ key`. -/
theorem findLeftBound_eq_findIdx (l : List (ListItem K V)) (key : K)
    (hs : KeysSorted l) :
    findLeftBound l key = l.findIdx fun it => decide (key ≤ it.key) := by
  unfold findLeftBound
  refine sortSearch_eq_findIdx l (fun it => decide (key ≤ it.key)) ?_
  intro i j hi hj hij hpi
  simp only [decide_eq_true_eq] at hpi ⊢
  rcases Nat.eq_or_lt_of_le hij with rfl | hlt
  · exact hpi
  · have hk : (l.get ⟨i, hi⟩).key ≤ (l.get ⟨j, hj⟩).key := by
      have := (List.pairwise_iff_getElem.mp hs) i j hi hj hlt
      simpa [List.get_eq_getElem] using this
    exact le_trans hpi hk

/-- On a sorted list, `findRightBound` is one less than the first index
with key `> key`. -/
theorem findRightBound_eq_findIdx (l : List (ListItem K V)) (key : K)
    (hs : KeysSorted l) :
    findRightBound l key = ((l.findIdx fun it => decide (it.key > key) : Nat) : Int) - 1 := by
  unfold findRightBound
  congr 1
  congr 1
  refine sortSearch_eq_findIdx l (fun it => decide (it.key > key)) ?_
  intro i j hi hj hij hpi
  simp only [decide_eq_true_eq] at hpi ⊢
  rcases Nat.eq_or_lt_of_le hij with rfl | hlt
  · exact hpi
  · have hk : (l.get ⟨i, hi⟩).key ≤ (l.get ⟨j, hj⟩).key := by
      have := (List.pairwise_iff_getElem.mp hs) i j hi hj hlt
      simpa [List.get_eq_getElem] using this
    exact lt_of_lt_of_le hpi hk

/-- `GE` restated without the dependent bound proof. -/
theorem GE_eq_getElem? (l : List (ListItem K V)) (key : K) :
    GE key l = (l[findLeftBound l key]?).map (·.val) := by
  unfold GE
  split
  · next h => rw [List.getElem?_eq_getElem h]; rfl
  · next h => rw [List.getElem?_eq_none (Nat.le_of_not_lt h)]; rfl

/-- `LE` restated without the dependent bound proof. -/
theorem LE_eq_getElem? (l : List (ListItem K V)) (key : K) :
    LE key l =
      if 0 ≤ findRightBound l key then
        (l[(findRightBound l key).toNat]?).map (·.val)
      else none := by
  unfold LE
  split
  · next h =>
    rw [List.getElem?_eq_getElem (by have := findRightBound_lt l key; omega)]
    rfl
  · next h => rfl

/-- On a sorted list `GE` is the first matching element. -/
theorem GE_eq_find? (l : List (ListItem K V)) (key : K) (hs : KeysSorted l) :
    GE key l = (l.find? fun it => decide (key ≤ it.key)).map (·.val) := by
  rw [GE_eq_getElem?, findLeftBound_eq_findIdx l key hs, ← find?_eq_getElem?_findIdx]

/-- On a sorted list, the elements with key `≤ key` form the prefix ending
just before the first key `> key`. -/
theorem filter_le_eq_take (l : List (ListItem K V)) (key : K) (hs : KeysSorted l) :
    l.filter (fun it => decide (it.key ≤ key))
      = l.take (l.findIdx fun it => decide (it.key > key)) := by
  induction l with
  | nil => rfl
  | cons a t ih =>
    rw [keysSorted_cons] at hs
    rw [List.findIdx_cons]
    by_cases ha : a.key ≤ key
    · have hgt : (decide (a.key > key)) = false := by
        simp [not_lt.mpr ha]
      rw [hgt, cond_false, List.filter_cons_of_pos (by simpa using ha),
        List.take_succ_cons, ih hs.2]
    · have ha' : key < a.key := not_le.mp ha
      have hgt : (decide (a.key > key)) = true := by simpa using ha'
      rw [hgt, cond_true, List.take_zero, List.filter_cons_of_neg (by simpa using ha)]
      rw [List.filter_eq_nil_iff]
      intro b hb
      have : a.key ≤ b.key := hs.1 b hb
      simp only [decide_eq_true_eq]
      exact not_le.mpr (lt_of_lt_of_le ha' this)

/-- On a sorted list `LE` is the last element with key `≤ key`. -/
theorem LE_eq_getLast? (l : List (ListItem K V)) (key : K) (hs : KeysSorted l) :
    LE key l = ((l.filter fun it => decide (it.key ≤ key)).getLast?).map (·.val) := by
  rw [LE_eq_getElem?, findRightBound_eq_findIdx l key hs, filter_le_eq_take l key hs]
  set j := l.findIdx fun it => decide (it.key > key) with hjdef
  have hjlen : j ≤ l.length := List.findIdx_le_length _
  rcases Nat.eq_zero_or_pos j with hj | hj
  · rw [hj]
    norm_num
  · rw [if_pos (by omega), List.getLast?_take, if_neg (by omega)]
    have htn : ((j : Int) - 1).toNat = j - 1 := by omega
    rw [htn, List.getElem?_eq_getElem (by omega), Option.or_some]

/-- On a sorted list with `left ≤ right`, the keys in `[left, right)` are a
contiguous slice delimited by the two left-bound binary searches. -/
theorem slice_eq_filter_range (l : List (ListItem K V)) (left right : K)
    (hs : KeysSorted l) (hlr : left ≤ right) :
    ((l.drop (l.findIdx fun it => decide (left ≤ it.key))).take
        ((l.findIdx fun it => decide (right ≤ it.key))
          - (l.findIdx fun it => decide (left ≤ it.key))))
      = l.filter fun it => decide (left ≤ it.key) && decide (it.key < right) := by
  induction l with
  | nil => rfl
  | cons a t ih =>
    rw [keysSorted_cons] at hs
    rw [List.findIdx_cons, List.findIdx_cons]
    rcases lt_or_le a.key left with hal | hal
    · have hL : (decide (left ≤ a.key)) = false := by simp [not_le.mpr hal]
      have hR : (decide (right ≤ a.key)) = false := by
        simp [not_le.mpr (lt_of_lt_of_le hal hlr)]
      rw [hL, hR, cond_false, cond_false, List.drop_succ_cons,
        Nat.succ_sub_succ, ih hs.2, List.filter_cons_of_neg (by simp [not_le.mpr hal])]
    · have hL : (decide (left ≤ a.key)) = true := by simpa using hal
      rcases lt_or_le a.key right with har | har
      · have hR : (decide (right ≤ a.key)) = false := by simp [not_le.mpr har]
        rw [hL, hR, cond_true, cond_false, List.drop_zero, Nat.sub_zero,
          List.take_succ_cons,
          List.filter_cons_of_pos (by simp [hal, har])]
        congr 1
        have htake0 : (t.findIdx fun it => decide (left ≤ it.key)) = 0 := by
          cases t with
          | nil => rfl
          | cons b t' =>
            rw [List.findIdx_cons]
            have : left ≤ b.key := le_trans hal (hs.1 b (by simp))
            simp [this]
        have := ih hs.2
        rw [htake0, List.drop_zero, Nat.sub_zero] at this
        exact this
      · have hR : (decide (right ≤ a.key)) = true := by simpa using har
        rw [hL, hR, cond_true, cond_true, Nat.sub_self, List.take_zero,
          List.filter_cons_of_neg (by simp [not_lt.mpr har]),
          List.filter_eq_nil_iff.mpr]
        intro b hb
        have hab : a.key ≤ b.key := hs.1 b hb
        simp only [Bool.and_eq_true, decide_eq_true_eq, not_and]
        intro _
        exact not_lt.mpr (le_trans har hab)

/-- The two left bounds of `InRange` are ordered whenever `left ≤ right`. -/
theorem findLeftBound_mono (l : List (ListItem K V)) (left right : K)
    (hs : KeysSorted l) (hlr : left ≤ right) :
    findLeftBound l left ≤ findLeftBound l right := by
  rw [findLeftBound_eq_findIdx l left hs, findLeftBound_eq_findIdx l right hs]
  apply findIdx_le_findIdx_of_imp
  intro it h
  simp only [decide_eq_true_eq] at h ⊢
  exact le_trans hlr h

/-- The concrete sorted list `[(1,10), (2,20), (3,30)]` used by the
specification's boundary examples. -/
def demoL : List (ListItem Int Int) := [⟨1, 10⟩, ⟨2, 20⟩, ⟨3, 30⟩]

/-- C2.  On a key-sorted item list, `GE key` returns the value of the first
entry whose key is `≥ key` (and nothing when there is none), and `LE key`
returns the value of the last entry whose key is `≤ key` (and nothing when
there is none).  The boundary examples of the specification
(`GE 1 = item 1`, `GE 4 = nothing`, `LE 0 = nothing`, `LE 2 = item 2` on
keys `[1,2,3]`) are instances, discharged in the witness. -/
theorem ge_le_boundary (l : List (ListItem K V)) (key : K) (hs : KeysSorted l) :
    GE key l = (l.find? fun it => decide (key ≤ it.key)).map (·.val) ∧
    LE key l = ((l.filter fun it => decide (it.key ≤ key)).getLast?).map (·.val) :=
  ⟨GE_eq_find? l key hs, LE_eq_getLast? l key hs⟩

/-- Witness for C2: the spec's concrete boundary cases on keys `[1,2,3]`. -/
theorem ge_le_boundary_witness :
    KeysSorted demoL ∧
    GE (1 : Int) demoL = some 10 ∧ GE (4 : Int) demoL = none ∧
    LE (0 : Int) demoL = none ∧ LE (2 : Int) demoL = some 20 :=
  ⟨by decide,
    ((ge_le_boundary demoL 1 (by decide)).1).trans (by decide),
    ((ge_le_boundary demoL 4 (by decide)).1).trans (by decide),
    ((ge_le_boundary demoL 0 (by decide)).2).trans (by decide),
    ((ge_le_boundary demoL 2 (by decide)).2).trans (by decide)⟩

/-- C3 counterexample: the claim promises a result for *every* pair of
bounds, but with reversed bounds `left = 3`, `right = 1` over the sorted
keys `[1,2,3]` the slice `l[leftIdx:rightIdx]` has `leftIdx = 2 >
rightIdx = 0`, so Go panics (modelled `none`) instead of returning the
(empty) list of matching values. -/
theorem inRange_reversed_counterexample :
    InRange (3 : Int) 1 demoL = none ∧
    InRange (3 : Int) 1 demoL ≠
      some ((demoL.filter fun it =>
        decide ((3:Int) ≤ it.key) && decide (it.key < 1)).map (·.val)) := by
  constructor
  · decide
  · decide

/-- C3 (amended with the precondition `left ≤ right`): `InRange left right`
returns exactly the values of the entries with key in `[left, right)`, in
ascending key order. -/
theorem inRange_eq_filter (l : List (ListItem K V)) (left right : K)
    (hs : KeysSorted l) (hlr : left ≤ right) :
    InRange left right l
      = some ((l.filter fun it =>
          decide (left ≤ it.key) && decide (it.key < right)).map (·.val)) := by
  unfold InRange
  rw [if_pos (findLeftBound_mono l left right hs hlr),
    findLeftBound_eq_findIdx l left hs, findLeftBound_eq_findIdx l right hs,
    slice_eq_filter_range l left right hs hlr]

/-- Witness for C3's amended theorem: `InRange 0 4` over keys `[1,2,3]`
returns all three values, and the spec's `InRange 1 3` example returns the
items keyed 1 and 2 (right-exclusive). -/
theorem inRange_eq_filter_witness :
    KeysSorted demoL ∧ (1 : Int) ≤ 3 ∧ InRange (1 : Int) 3 demoL = some [10, 20] :=
  ⟨by decide, by decide,
    (inRange_eq_filter demoL 1 3 (by decide) (by decide)).trans (by decide)⟩

/-- C4.  Every selection function is total and empty-safe: on the empty
list each returns nothing (`none`/`[]`; `InRange` returns `some []`, i.e.
does not even panic), and on a sorted list a `GE` target above the maximum
key or an `LE` target below the minimum key returns nothing.  Totality of
the Lean functions (no partiality anywhere but the modelled `InRange`
slice panic) is the no-out-of-bounds part of the claim. -/
theorem selection_empty_safety (l : List (ListItem K V)) (key left right : K) :
    (GE key ([] : List (ListItem K V)) = none ∧
     LE key ([] : List (ListItem K V)) = none ∧
     GEs key ([] : List (ListItem K V)) = [] ∧
     LEs key ([] : List (ListItem K V)) = [] ∧
     InRange left right ([] : List (ListItem K V)) = some []) ∧
    (KeysSorted l → (∀ it ∈ l, it.key < key) → GE key l = none) ∧
    (KeysSorted l → (∀ it ∈ l, key < it.key) → LE key l = none) := by
  refine ⟨⟨rfl, rfl, rfl, rfl, rfl⟩, ?_, ?_⟩
  · intro hs hbig
    rw [GE_eq_getElem?, findLeftBound_eq_findIdx l key hs,
      List.findIdx_eq_length_of_false, List.getElem?_len_le (Nat.le_refl _)]
    · rfl
    · intro it hit
      simp [not_le.mpr (hbig it hit)]
  · intro hs hsmall
    rw [LE_eq_getElem?, findRightBound_eq_findIdx l key hs]
    have h0 : (l.findIdx fun it => decide (it.key > key)) = 0 := by
      cases l with
      | nil => rfl
      | cons a t =>
        rw [List.findIdx_cons]
        have : key < a.key := hsmall a (by simp)
        simp [this]
    rw [h0]
    norm_num

/-- Witness for C4: concrete empty-list and out-of-range cases. -/
theorem selection_empty_safety_witness :
    (KeysSorted demoL ∧ (∀ it ∈ demoL, it.key < (9 : Int)) ∧
      GE (9 : Int) demoL = none) ∧
    (KeysSorted demoL ∧ (∀ it ∈ demoL, (0 : Int) < it.key) ∧
      LE (0 : Int) demoL = none) ∧
    GEs (5 : Int) ([] : List (ListItem Int Int)) = [] ∧
    InRange (2 : Int) 7 ([] : List (ListItem Int Int)) = some [] :=
  ⟨⟨by decide, by decide,
      (selection_empty_safety demoL 9 0 0).2.1 (by decide) (by decide)⟩,
    ⟨by decide, by decide,
      (selection_empty_safety demoL 0 0 0).2.2 (by decide) (by decide)⟩,
    ((selection_empty_safety ([] : List (ListItem Int Int)) 5 0 0).1).2.2.1,
    ((selection_empty_safety ([] : List (ListItem Int Int)) 5 2 7).1).2.2.2.2⟩

/-- C10.  `InRange` with reversed bounds aborts: whenever some stored key
`k` satisfies `right ≤ k < left`, the computed left bound strictly exceeds
the right bound and the Go slice `l[leftIdx:rightIdx]` panics (modelled
`none`) instead of returning an empty result. -/
theorem inRange_reversed_panics (l : List (ListItem K V)) (left right : K)
    (hs : KeysSorted l) (h : ∃ it ∈ l, right ≤ it.key ∧ it.key < left) :
    findLeftBound l right < findLeftBound l left ∧
    InRange left right l = none := by
  have hlt : findLeftBound l right < findLeftBound l left := by
    rw [findLeftBound_eq_findIdx l right hs, findLeftBound_eq_findIdx l left hs]
    obtain ⟨it, hmem, hr, hl⟩ := h
    obtain ⟨⟨i, hi⟩, hgeti⟩ := List.mem_iff_get.mp hmem
    have h1 : (l.findIdx fun it => decide (right ≤ it.key)) ≤ i := by
      by_contra hcon
      have hf := findIdx_not_of_lt (fun it => decide (right ≤ it.key)) l i hi
        (Nat.lt_of_not_le hcon)
      rw [hgeti] at hf
      simp [hr] at hf
    have h2 : i < l.findIdx fun it => decide (left ≤ it.key) := by
      by_contra hcon
      have hle : (l.findIdx fun it => decide (left ≤ it.key)) ≤ i :=
        Nat.le_of_not_lt hcon
      have hflt : (l.findIdx fun it => decide (left ≤ it.key)) < l.length :=
        Nat.lt_of_le_of_lt hle hi
      have hp := findIdx_get_true (fun it => decide (left ≤ it.key)) l hflt
      simp only [decide_eq_true_eq] at hp
      have hkey : (l.get ⟨l.findIdx fun it => decide (left ≤ it.key), hflt⟩).key
          ≤ it.key := by
        rcases Nat.eq_or_lt_of_le hle with heq | hlt2
        · rw [← hgeti]
          simp [List.get_eq_getElem, heq]
        · have hgeti2 := hgeti
          simp only [List.get_eq_getElem] at hgeti2
          have hpw := (List.pairwise_iff_getElem.mp hs) _ i hflt hi hlt2
          rw [hgeti2] at hpw
          simpa [List.get_eq_getElem] using hpw
      exact absurd (lt_of_le_of_lt (le_trans hp hkey) hl) (lt_irrefl left)
    omega
  refine ⟨hlt, ?_⟩
  unfold InRange
  rw [if_neg (Nat.not_le.mpr hlt)]

/-- Witness for C10: `InRange 3 1` over keys `[1,2,3]` (key 1 lies in
`[right, left) = [1, 3)`) aborts. -/
theorem inRange_reversed_panics_witness :
    KeysSorted demoL ∧ (∃ it ∈ demoL, (1 : Int) ≤ it.key ∧ it.key < 3) ∧
    (findLeftBound demoL (1 : Int) < findLeftBound demoL 3 ∧
      InRange (3 : Int) 1 demoL = none) :=
  ⟨by decide, by decide, inRange_reversed_panics demoL 3 1 (by decide) (by decide)⟩

/-! ## The node tree (`match/tree.go` plus the node definitions file)

`Node[Q, D]` is a Go interface with the fixed implementations `DataNode`,
`SortedNode` and `MapNode`; it is embedded as a closed inductive.  The
caller-supplied `Pick` functions of `SortedNode`/`MapNode` are the
selection policies the repository provides for them (`PickOneWrapper`
around `GE`/`LE`, the multi-valued `GEs`/`LEs`, and the unique-lookup
`Pick` installed by `UniqueMapNode`), embedded as first-order policy
values so that `Node` remains strictly positive. -/

/-- The selection policies a `SortedNode`'s `Pick` field can carry:
`PickOneWrapper(GE)`/`PickOneWrapper(LE)` (as installed by
`UniqueSortedNode`) and the multi-valued `GEs`/`LEs`, each together with
the query-key extractor. -/
inductive SortedPick (K Q : Type) where
  | pickGE (queryKey : Q → K)
  | pickLE (queryKey : Q → K)
  | pickGEs (queryKey : Q → K)
  | pickLEs (queryKey : Q → K)

/-- The selection policy a `MapNode`'s `Pick` field carries: the unique
exact-match lookup installed by `UniqueMapNode`. -/
inductive MapPick (K Q : Type) where
  | pickUnique (queryKey : Q → K)

/-- Go `Node[Q, D]` with its three concrete shapes.  `MapNode`'s Go map is
modelled as an association list with unique keys (Go map iteration order
is unspecified). -/
inductive Node (K Q D : Type) where
  | DataNode (data : List D)
  | SortedNode (data : List (ListItem K (Node K Q D))) (pick : SortedPick K Q)
  | MapNode (data : List (K × Node K Q D)) (pick : MapPick K Q)

variable {Q D : Type}

/-- Lookup in the association list modelling a Go map read `m[k]`. -/
def lookupA {N : Type} (m : List (K × N)) (k : K) : Option N :=
  (m.find? fun p => decide (p.1 = k)).map (·.2)

/-- Evaluate a sorted-node selection policy on the `(key, child)` list:
exactly the `Pick` closures the repository plugs into `SortedNode`. -/
def applySortedPick {N : Type} : SortedPick K Q → Q → List (ListItem K N) → List N
  | .pickGE qk, q, li => PickOneWrapper (fun k l => GE k l) (qk q) li
  | .pickLE qk, q, li => PickOneWrapper (fun k l => LE k l) (qk q) li
  | .pickGEs qk, q, li => GEs (qk q) li
  | .pickLEs qk, q, li => LEs (qk q) li

/-- Evaluate a map-node selection policy: the `Pick` closure installed by
`UniqueMapNode` (`if val, ok := m[queryKey(q)]; ok` …). -/
def applyMapPick {N : Type} : MapPick K Q → Q → List (K × N) → List N
  | .pickUnique qk, q, m =>
    match lookupA m (qk q) with
    | some val => [val]
    | none => []

/-- `Next` of each node shape: `DataNode.Next` returns nothing,
`SortedNode.Next`/`MapNode.Next` call their `Pick` on the stored data. -/
def Next : Node K Q D → Q → List (Node K Q D)
  | .DataNode _, _ => []
  | .SortedNode es pk, q => applySortedPick pk q es
  | .MapNode es pk, q => applyMapPick pk q es

/-- `Leaf` of each node shape: `DataNode.Leaf` returns
`(data, len(data) != 0)`; the level nodes inherit `EmptyNode.Leaf`,
`(nil, false)`. -/
def Leaf : Node K Q D → List D × Bool
  | .DataNode r => (r, !r.isEmpty)
  | .SortedNode _ _ => ([], false)
  | .MapNode _ _ => ([], false)

/-- The records a dequeued node contributes to the search result:
`if val, ok := n.Leaf(); ok [res = append(res, val...)]`. -/
def leafContrib (n : Node K Q D) : List D :=
  if (Leaf n).2 then (Leaf n).1 else []

mutual
/-- Number of nodes of the tree (the termination measure for `Search`). -/
def sizeN : Node K Q D → Nat
  | .DataNode _ => 1
  | .SortedNode es _ => 1 + sizeEntries es
  | .MapNode es _ => 1 + sizePairs es
def sizeEntries : List (ListItem K (Node K Q D)) → Nat
  | [] => 0
  | e :: es => sizeN e.val + sizeEntries es
def sizePairs : List (K × Node K Q D) → Nat
  | [] => 0
  | p :: ps => sizeN p.2 + sizePairs ps
end

/-- Total size of a list of nodes (the search queue). -/
def sizeL (l : List (Node K Q D)) : Nat := (l.map sizeN).sum

theorem sizeN_pos (n : Node K Q D) : 1 ≤ sizeN n := by
  cases n <;> simp [sizeN]

theorem sizeL_append (l₁ l₂ : List (Node K Q D)) :
    sizeL (l₁ ++ l₂) = sizeL l₁ + sizeL l₂ := by
  simp [sizeL]

theorem sizeL_cons (n : Node K Q D) (l : List (Node K Q D)) :
    sizeL (n :: l) = sizeN n + sizeL l := by
  simp [sizeL]

theorem sizeEntries_eq (es : List (ListItem K (Node K Q D))) :
    sizeEntries es = sizeL (es.map (·.val)) := by
  induction es with
  | nil => rfl
  | cons e es ih => simp [sizeEntries, sizeL_cons, ih, sizeL]

theorem sizePairs_eq (ps : List (K × Node K Q D)) :
    sizePairs ps = sizeL (ps.map (·.2)) := by
  induction ps with
  | nil => rfl
  | cons p ps ih => simp [sizePairs, sizeL_cons, ih, sizeL]

theorem sizeL_le_of_sublist {l₁ l₂ : List (Node K Q D)} (h : l₁.Sublist l₂) :
    sizeL l₁ ≤ sizeL l₂ := by
  induction h with
  | slnil => exact Nat.le_refl _
  | cons a _ ih => rw [sizeL_cons]; omega
  | cons₂ a _ ih => rw [sizeL_cons, sizeL_cons]; omega

/-- `GE` only ever returns the value of a stored entry. -/
theorem GE_mem {l : List (ListItem K V)} {key : K} {v : V}
    (h : GE key l = some v) : ∃ it ∈ l, it.val = v := by
  rw [GE_eq_getElem?] at h
  cases hget : l[findLeftBound l key]? with
  | none => rw [hget] at h; cases h
  | some it =>
    rw [hget] at h
    refine ⟨it, List.getElem?_mem hget, ?_⟩
    simpa using h

/-- `LE` only ever returns the value of a stored entry. -/
theorem LE_mem {l : List (ListItem K V)} {key : K} {v : V}
    (h : LE key l = some v) : ∃ it ∈ l, it.val = v := by
  rw [LE_eq_getElem?] at h
  by_cases h0 : 0 ≤ findRightBound l key
  · rw [if_pos h0] at h
    cases hget : l[(findRightBound l key).toNat]? with
    | none => rw [hget] at h; cases h
    | some it =>
      rw [hget] at h
      refine ⟨it, List.getElem?_mem hget, ?_⟩
      simpa using h
  · rw [if_neg h0] at h; cases h

/-- Every sorted-node selection policy returns a sublist of the stored
children. -/
theorem applySortedPick_sublist {N : Type} (pk : SortedPick K Q) (q : Q)
    (es : List (ListItem K N)) :
    (applySortedPick pk q es).Sublist (es.map (·.val)) := by
  cases pk with
  | pickGE qk =>
    simp only [applySortedPick, PickOneWrapper]
    cases hge : GE (qk q) es with
    | none => exact List.nil_sublist _
    | some v =>
      rw [List.singleton_sublist]
      obtain ⟨it, hmem, hval⟩ := GE_mem hge
      exact hval ▸ List.mem_map_of_mem _ hmem
  | pickLE qk =>
    simp only [applySortedPick, PickOneWrapper]
    cases hle : LE (qk q) es with
    | none => exact List.nil_sublist _
    | some v =>
      rw [List.singleton_sublist]
      obtain ⟨it, hmem, hval⟩ := LE_mem hle
      exact hval ▸ List.mem_map_of_mem _ hmem
  | pickGEs qk =>
    simp only [applySortedPick, GEs]
    exact List.Sublist.map _ (List.drop_sublist _ _)
  | pickLEs qk =>
    simp only [applySortedPick, LEs]
    split
    · exact List.Sublist.map _ (List.take_sublist _ _)
    · exact List.nil_sublist _

/-- The map-node lookup returns a sublist of the stored children. -/
theorem applyMapPick_sublist {N : Type} (pk : MapPick K Q) (q : Q)
    (es : List (K × N)) :
    (applyMapPick pk q es).Sublist (es.map (·.2)) := by
  cases pk with
  | pickUnique qk =>
    simp only [applyMapPick]
    cases hlk : lookupA es (qk q) with
    | none => exact List.nil_sublist _
    | some v =>
      rw [List.singleton_sublist]
      unfold lookupA at hlk
      cases hf : es.find? fun p => decide (p.1 = qk q) with
      | none => rw [hf] at hlk; cases hlk
      | some p =>
        rw [hf] at hlk
        have hmem := List.mem_of_find?_eq_some hf
        have : p.2 = v := by simpa using hlk
        exact this ▸ List.mem_map_of_mem _ hmem

/-- A node's children under `Next` are strictly smaller than the node:
the key fact behind termination of `Search`. -/
theorem sizeL_Next_lt (n : Node K Q D) (q : Q) : sizeL (Next n q) < sizeN n := by
  cases n with
  | DataNode r =>
    simp [Next, sizeL, sizeN]
  | SortedNode es pk =>
    have h := sizeL_le_of_sublist (applySortedPick_sublist pk q es)
    rw [← sizeEntries_eq] at h
    simp only [Next, sizeN]
    omega
  | MapNode es pk =>
    have h := sizeL_le_of_sublist (applyMapPick_sublist pk q es)
    rw [← sizePairs_eq] at h
    simp only [Next, sizeN]
    omega

/-- The breadth-first loop of Go `Search`: dequeue the front node, append
its records if it is a leaf, enqueue its `Next(query)` children at the
back.  The Go loop is unbounded; it is total because children shrink
(`sizeL_Next_lt`). -/
def searchLoop (q : Q) : List (Node K Q D) → List D
  | [] => []
  | n :: rest => leafContrib n ++ searchLoop q (rest ++ Next n q)
termination_by l => sizeL l
decreasing_by
  have h1 := sizeL_Next_lt n q
  rw [sizeL_append, sizeL_cons]
  omega

/-- Go `Search(root, query)`: run the loop on the queue seeded with the
root. -/
def Search (root : Node K Q D) (query : Q) : List D :=
  searchLoop query [root]

/-- The same loop with an explicit step counter, `none` when the counter
runs out: makes "the Go loop terminates" a provable statement rather than
a by-product of the encoding. -/
def searchStepFuel (q : Q) : Nat → List (Node K Q D) → List D → Option (List D)
  | _, [], acc => some acc
  | 0, _ :: _, _ => none
  | fuel + 1, n :: rest, acc =>
    searchStepFuel q fuel (rest ++ Next n q) (acc ++ leafContrib n)

/-- With fuel at least the total queue size, the step-counted loop
finishes and computes `searchLoop`. -/
theorem searchStepFuel_some (q : Q) :
    ∀ (fuel : Nat) (queue : List (Node K Q D)) (acc : List D),
      sizeL queue ≤ fuel →
      searchStepFuel q fuel queue acc = some (acc ++ searchLoop q queue) := by
  intro fuel
  induction fuel with
  | zero =>
    intro queue acc hq
    cases queue with
    | nil => simp [searchStepFuel, searchLoop]
    | cons n rest =>
      exfalso
      have := sizeN_pos n
      rw [sizeL_cons] at hq
      omega
  | succ fuel ih =>
    intro queue acc hq
    cases queue with
    | nil => simp [searchStepFuel, searchLoop]
    | cons n rest =>
      rw [searchStepFuel, ih (rest ++ Next n q) (acc ++ leafContrib n)
        (by have := sizeL_Next_lt n q; rw [sizeL_append]; rw [sizeL_cons] at hq; omega)]
      rw [searchLoop]
      simp [List.append_assoc]

/-! ## Builders and `Build`

Go's `Build` appends a `DataNodeBuilder` to the caller's builder list,
loads the record list into the first builder, then walks the remaining
builders layer by layer: `Push` on every builder of the current layer
loads the next builder template once per group and *mutates the parent's
child slice/map in place* (the parent and the working list alias the same
backing store), so the final `rootBuilder.Node()` sees every layer.  The
embedding makes this aliasing explicit: the builder state is a tree
(`Builder`), pushing layer `d` is a whole-tree update at depth `d`
(`pushAtDepth`), and the layered loop is `pushAll`. -/

/-- A level specification as the caller supplies it to `Build`: a
`SortedNodeBuilder` (ordered level — `GroupKey` plus a `Pick` policy) or a
`MapNodeBuilder` (keyed level). -/
inductive LevelSpec (K Q D : Type) where
  | sortedSpec (groupKey : D → K) (pick : SortedPick K Q)
  | mapSpec (groupKey : D → K) (pick : MapPick K Q)

/-- An entry of `Build`'s internal builder list: one of the caller's level
specifications, or the `DataNodeBuilder` that `Build` appends. -/
inductive BSpec (K Q D : Type) where
  | level (s : LevelSpec K Q D)
  | dataSpec

/-- Builder state during `Build` (Go `DataNodeBuilder`,
`SortedNodeBuilder`, `MapNodeBuilder`): the per-level grouping `data`
plus the child builders filled in by `Push` (empty until pushed). -/
inductive Builder (K Q D : Type) where
  | dataB (data : List D)
  | sortedB (groupKey : D → K) (pick : SortedPick K Q)
      (data : List (ListItem K (List D))) (children : List (Builder K Q D))
  | mapB (groupKey : D → K) (pick : MapPick K Q)
      (data : List (K × List D)) (children : List (Builder K Q D))

/-- The distinct keys of `l` under `key`, in first-occurrence order.
Go's `groupBy` returns a map whose iteration order is arbitrary;
first-occurrence order is the canonical choice (no claim depends on the
order of a keyed level's groups). -/
def keysOf (key : D → K) : List D → List K
  | [] => []
  | d :: ds => key d :: (keysOf key ds).filter fun k => decide (k ≠ key d)

/-- Go `groupBy`: group a list by a key extractor; each group keeps the
input order of its members (`res[key(item)] = append(res[key(item)], item)`). -/
def groupBy (key : D → K) (l : List D) : List (K × List D) :=
  (keysOf key l).map fun k => (k, l.filter fun d => decide (key d = k))

/-- The grouping built by `SortedNodeBuilder.Load`: one entry per distinct
key, sorted ascending by key. -/
def sortedGroups (key : D → K) (l : List D) : List (ListItem K (List D)) :=
  (List.insertionSort (fun a b => a ≤ b) (keysOf key l)).map
    fun k => ⟨k, l.filter fun d => decide (key d = k)⟩

/-- `Load` of each builder shape (`DataNodeBuilder.Load`,
`SortedNodeBuilder.Load`, `MapNodeBuilder.Load`): group the records;
children start unfilled. -/
def loadB : BSpec K Q D → List D → Builder K Q D
  | .dataSpec, list => .dataB list
  | .level (.sortedSpec gk pk), list => .sortedB gk pk (sortedGroups gk list) []
  | .level (.mapSpec gk pk), list => .mapB gk pk (groupBy gk list) []

mutual
/-- Push the next-level builder template onto every builder sitting at
depth `d` of the builder tree: at depth 0 this is Go `Push` (load the
template once per group, store the results as the children); deeper
levels recurse through the children.  `DataNodeBuilder.Push` is a no-op. -/
def pushAtDepth : Nat → BSpec K Q D → Builder K Q D → Builder K Q D
  | 0, s, .sortedB gk pk data _ => .sortedB gk pk data (data.map fun e => loadB s e.val)
  | 0, s, .mapB gk pk data _ => .mapB gk pk data (data.map fun e => loadB s e.2)
  | 0, _, .dataB r => .dataB r
  | d + 1, s, .sortedB gk pk data ch => .sortedB gk pk data (pushList d s ch)
  | d + 1, s, .mapB gk pk data ch => .mapB gk pk data (pushList d s ch)
  | _ + 1, _, .dataB r => .dataB r
def pushList : Nat → BSpec K Q D → List (Builder K Q D) → List (Builder K Q D)
  | _, _, [] => []
  | d, s, b :: bs => pushAtDepth d s b :: pushList d s bs
end

/-- The layered loop of Go `Build`: push builder `i+1` onto layer `i`,
for each remaining builder in order. -/
def pushAll : Nat → List (BSpec K Q D) → Builder K Q D → Builder K Q D
  | _, [], b => b
  | d, s :: ss, b => pushAll (d + 1) ss (pushAtDepth d s b)

mutual
/-- `Node()` of each builder shape: zip the stored groups with the pushed
children, finalizing recursively. -/
def nodeOf : Builder K Q D → Node K Q D
  | .dataB r => .DataNode r
  | .sortedB _ pk data ch => .SortedNode (zipEntries data ch) pk
  | .mapB _ pk data ch => .MapNode (zipPairs data ch) pk
def zipEntries : List (ListItem K (List D)) → List (Builder K Q D) →
    List (ListItem K (Node K Q D))
  | [], _ => []
  | _ :: _, [] => []
  | e :: es, b :: bs => ⟨e.key, nodeOf b⟩ :: zipEntries es bs
def zipPairs : List (K × List D) → List (Builder K Q D) → List (K × Node K Q D)
  | [], _ => []
  | _ :: _, [] => []
  | p :: ps, b :: bs => (p.1, nodeOf b) :: zipPairs ps bs
end

/-- Go `Build(list, builder)`: append the implicit `DataNodeBuilder`,
load the record list into the first builder, push the remaining builders
layer by layer, and finalize the root. -/
def Build (list : List D) (specs : List (LevelSpec K Q D)) : Node K Q D :=
  match specs with
  | [] => nodeOf (pushAll 0 [] (loadB .dataSpec list))
  | s :: rest =>
    nodeOf (pushAll 0 (rest.map .level ++ [.dataSpec]) (loadB (.level s) list))

/-- Go `UniqueMapNode(queryKey, groupKey)`: a keyed level with the unique
exact-match lookup policy. -/
def UniqueMapNode (queryKey : Q → K) (groupKey : D → K) : LevelSpec K Q D :=
  .mapSpec groupKey (.pickUnique queryKey)

/-- Denotational form of `Build`: each level node carries one child per
distinct group, built recursively from that group's records (proved equal
to `Build` below). -/
def buildRec : List (LevelSpec K Q D) → List D → Node K Q D
  | [], list => .DataNode list
  | .sortedSpec gk pk :: rest, list =>
    .SortedNode ((sortedGroups gk list).map fun e => ⟨e.key, buildRec rest e.val⟩) pk
  | .mapSpec gk pk :: rest, list =>
    .MapNode ((groupBy gk list).map fun e => (e.1, buildRec rest e.2)) pk

/-- The builder that `Build` loads the records into. -/
def headSpec : List (LevelSpec K Q D) → BSpec K Q D
  | [] => .dataSpec
  | s :: _ => .level s

/-- The builders `Build` pushes after loading the first one. -/
def restSpecs : List (LevelSpec K Q D) → List (BSpec K Q D)
  | [] => []
  | _ :: ss => ss.map .level ++ [.dataSpec]

theorem restSpecs_cons (s : LevelSpec K Q D) (ss : List (LevelSpec K Q D)) :
    restSpecs (s :: ss) = headSpec ss :: restSpecs ss := by
  cases ss <;> rfl

theorem pushList_eq_map (d : Nat) (s : BSpec K Q D) (bs : List (Builder K Q D)) :
    pushList d s bs = bs.map (pushAtDepth d s) := by
  induction bs with
  | nil => rfl
  | cons b bs ih => rw [pushList, ih]; rfl

theorem pushAll_dataB (d : Nat) (ss : List (BSpec K Q D)) (r : List D) :
    pushAll d ss (.dataB r) = .dataB r := by
  induction ss generalizing d with
  | nil => rfl
  | cons s ss ih =>
    rw [pushAll]
    cases d with
    | zero => rw [pushAtDepth]; exact ih _
    | succ d => rw [pushAtDepth]; exact ih _

theorem pushAll_sortedB (ss : List (BSpec K Q D)) :
    ∀ (d : Nat) (gk : D → K) (pk : SortedPick K Q)
      (data : List (ListItem K (List D))) (ch : List (Builder K Q D)),
      pushAll (d + 1) ss (.sortedB gk pk data ch)
        = .sortedB gk pk data (ch.map (pushAll d ss)) := by
  induction ss with
  | nil =>
    intro d gk pk data ch
    rw [pushAll]
    have : ch.map (pushAll d []) = ch.map id := by
      apply List.map_congr_left
      intro b _
      rw [pushAll, id]
    rw [this, List.map_id]
  | cons s ss ih =>
    intro d gk pk data ch
    rw [pushAll, pushAtDepth, pushList_eq_map, ih (d + 1) gk pk data]
    congr 1
    rw [List.map_map]
    apply List.map_congr_left
    intro b _
    simp only [Function.comp_apply]
    rw [pushAll]

theorem pushAll_mapB (ss : List (BSpec K Q D)) :
    ∀ (d : Nat) (gk : D → K) (pk : MapPick K Q)
      (data : List (K × List D)) (ch : List (Builder K Q D)),
      pushAll (d + 1) ss (.mapB gk pk data ch)
        = .mapB gk pk data (ch.map (pushAll d ss)) := by
  induction ss with
  | nil =>
    intro d gk pk data ch
    rw [pushAll]
    have : ch.map (pushAll d []) = ch.map id := by
      apply List.map_congr_left
      intro b _
      rw [pushAll, id]
    rw [this, List.map_id]
  | cons s ss ih =>
    intro d gk pk data ch
    rw [pushAll, pushAtDepth, pushList_eq_map, ih (d + 1) gk pk data]
    congr 1
    rw [List.map_map]
    apply List.map_congr_left
    intro b _
    simp only [Function.comp_apply]
    rw [pushAll]

theorem zipEntries_map (es : List (ListItem K (List D)))
    (f : ListItem K (List D) → Builder K Q D) :
    zipEntries es (es.map f) = es.map fun e => ⟨e.key, nodeOf (f e)⟩ := by
  induction es with
  | nil => rfl
  | cons e es ih => rw [List.map_cons, zipEntries, ih]; rfl

theorem zipPairs_map (ps : List (K × List D)) (f : K × List D → Builder K Q D) :
    zipPairs ps (ps.map f) = ps.map fun p => (p.1, nodeOf (f p)) := by
  induction ps with
  | nil => rfl
  | cons p ps ih => rw [List.map_cons, zipPairs, ih]; rfl

/-- The layered, aliasing build of Go computes the recursive build. -/
theorem buildAux_eq (specs : List (LevelSpec K Q D)) :
    ∀ list : List D,
      nodeOf (pushAll 0 (restSpecs specs) (loadB (headSpec specs) list))
        = buildRec specs list := by
  induction specs with
  | nil =>
    intro list
    rw [headSpec, restSpecs, loadB, pushAll, nodeOf, buildRec]
  | cons s ss ih =>
    intro list
    rw [restSpecs_cons]
    cases s with
    | sortedSpec gk pk =>
      rw [headSpec, loadB, pushAll, pushAtDepth, pushAll_sortedB, nodeOf,
        List.map_map, zipEntries_map, buildRec]
      congr 1
      apply List.map_congr_left
      intro e _
      simp only [Function.comp_apply]
      rw [ih e.val]
    | mapSpec gk pk =>
      rw [headSpec, loadB, pushAll, pushAtDepth, pushAll_mapB, nodeOf,
        List.map_map, zipPairs_map, buildRec]
      congr 1
      apply List.map_congr_left
      intro e _
      simp only [Function.comp_apply]
      rw [ih e.2]

/-- `Build` equals its denotational form. -/
theorem Build_eq_buildRec (list : List D) (specs : List (LevelSpec K Q D)) :
    Build list specs = buildRec specs list := by
  cases specs with
  | nil => exact buildAux_eq [] list
  | cons s ss => exact buildAux_eq (s :: ss) list

/-! ## The partition invariant (claim C1) -/

mutual
/-- All records held by the leaves (`DataNode`s) of a tree, in tree
order. -/
def leafRecords : Node K Q D → List D
  | .DataNode r => r
  | .SortedNode es _ => leafRecordsE es
  | .MapNode es _ => leafRecordsP es
def leafRecordsE : List (ListItem K (Node K Q D)) → List D
  | [] => []
  | e :: es => leafRecords e.val ++ leafRecordsE es
def leafRecordsP : List (K × Node K Q D) → List D
  | [] => []
  | p :: ps => leafRecords p.2 ++ leafRecordsP ps
end

theorem leafRecordsE_eq (es : List (ListItem K (Node K Q D))) :
    leafRecordsE es = es.flatMap fun e => leafRecords e.val := by
  induction es with
  | nil => rfl
  | cons e es ih => rw [leafRecordsE, ih, List.flatMap_cons]

theorem leafRecordsP_eq (ps : List (K × Node K Q D)) :
    leafRecordsP ps = ps.flatMap fun p => leafRecords p.2 := by
  induction ps with
  | nil => rfl
  | cons p ps ih => rw [leafRecordsP, ih, List.flatMap_cons]

theorem keysOf_nodup (key : D → K) (l : List D) : (keysOf key l).Nodup := by
  induction l with
  | nil => exact List.nodup_nil
  | cons d ds ih =>
    rw [keysOf, List.nodup_cons]
    constructor
    · intro hmem
      have := List.of_mem_filter hmem
      simp at this
    · exact List.Nodup.filter _ ih

theorem mem_keysOf {key : D → K} {l : List D} {d : D} (hd : d ∈ l) :
    key d ∈ keysOf key l := by
  induction l with
  | nil => cases hd
  | cons a ds ih =>
    rw [keysOf]
    rcases List.mem_cons.mp hd with rfl | hd'
    · exact List.mem_cons_self _ _
    · by_cases heq : key d = key a
      · rw [heq]; exact List.mem_cons_self _ _
      · exact List.mem_cons_of_mem _ (List.mem_filter.mpr ⟨ih hd', by simpa using heq⟩)

/-- Concatenating the groups of a complete, duplicate-free key list gives
back the original list up to permutation. -/
theorem flatMap_filter_perm (key : D → K) :
    ∀ (ks : List K) (l : List D), ks.Nodup → (∀ d ∈ l, key d ∈ ks) →
      (ks.flatMap fun k => l.filter fun d => decide (key d = k)).Perm l := by
  intro ks
  induction ks with
  | nil =>
    intro l _ hcov
    have hl : l = [] := by
      cases l with
      | nil => rfl
      | cons d ds => exact absurd (hcov d (by simp)) (by simp)
    subst hl
    simp
  | cons k ks ih =>
    intro l hnd hcov
    rw [List.flatMap_cons]
    obtain ⟨hk, hnd'⟩ := List.nodup_cons.mp hnd
    have hrest : (ks.flatMap fun kk => l.filter fun d => decide (key d = kk))
        = ks.flatMap fun kk =>
            (l.filter fun d => !decide (key d = k)).filter fun d => decide (key d = kk) := by
      apply List.flatMap_congr
      intro kk hkk
      rw [List.filter_filter]
      apply List.filter_congr
      intro d _
      cases hdk : decide (key d = kk) with
      | false => simp
      | true =>
        have h1 : key d = kk := of_decide_eq_true hdk
        have h2 : ¬ key d = k := by
          rw [h1]
          intro hcon
          exact hk (hcon ▸ hkk)
        simp [h2]
    rw [hrest]
    have hperm := ih (l.filter fun d => !decide (key d = k)) hnd' ?_
    · exact (hperm.append_left _).trans (List.filter_append_perm _ l)
    · intro d hd
      have hmem := List.mem_of_mem_filter hd
      have hne := List.of_mem_filter hd
      rcases List.mem_cons.mp (hcov d hmem) with heq | h
      · exfalso
        simp [heq] at hne
      · exact h

/-- Pointwise permutation congruence for `flatMap`. -/
theorem flatMap_perm_congr {α β : Type} (l : List α) (f g : α → List β)
    (h : ∀ a ∈ l, (f a).Perm (g a)) : (l.flatMap f).Perm (l.flatMap g) := by
  induction l with
  | nil => exact List.Perm.refl _
  | cons a t ih =>
    rw [List.flatMap_cons, List.flatMap_cons]
    exact (h a (by simp)).append (ih fun b hb => h b (by simp [hb]))

/-- C1 (partition property), stated on the denotational form: the
multiset of all leaf records of the built tree is exactly the input
record list. -/
theorem leafRecords_buildRec_perm (specs : List (LevelSpec K Q D)) :
    ∀ list : List D, (leafRecords (buildRec specs list)).Perm list := by
  induction specs with
  | nil => intro list; rw [buildRec, leafRecords]
  | cons s ss ih =>
    intro list
    cases s with
    | sortedSpec gk pk =>
      rw [buildRec, leafRecords, leafRecordsE_eq, List.flatMap_map]
      have h1 : ((sortedGroups gk list).flatMap
            fun e => leafRecords (buildRec ss e.val)).Perm
          ((sortedGroups gk list).flatMap fun e => e.val) :=
        flatMap_perm_congr _ _ _ fun e _ => ih e.val
      refine h1.trans ?_
      rw [sortedGroups, List.flatMap_map]
      have h2 : (List.insertionSort (fun a b => a ≤ b) (keysOf gk list)).Perm
          (keysOf gk list) := List.perm_insertionSort _ _
      refine (h2.flatMap_right _).trans ?_
      exact flatMap_filter_perm gk (keysOf gk list) list (keysOf_nodup gk list)
        fun d hd => mem_keysOf hd
    | mapSpec gk pk =>
      rw [buildRec, leafRecords, leafRecordsP_eq, List.flatMap_map]
      have h1 : ((groupBy gk list).flatMap
            fun e => leafRecords (buildRec ss e.2)).Perm
          ((groupBy gk list).flatMap fun e => e.2) :=
        flatMap_perm_congr _ _ _ fun e _ => ih e.2
      refine h1.trans ?_
      rw [groupBy, List.flatMap_map]
      exact flatMap_filter_perm gk (keysOf gk list) list (keysOf_nodup gk list)
        fun d hd => mem_keysOf hd

/-- C1.  Partition property: for every record list and every level
specification list, the multiset union of the record lists held by all
`DataNode` leaves of `Build(R, L)` is exactly R — every input record
sits in exactly one leaf, once. -/
theorem build_partition (list : List D) (specs : List (LevelSpec K Q D)) :
    (leafRecords (Build list specs)).Perm list := by
  rw [Build_eq_buildRec]
  exact leafRecords_buildRec_perm specs list

/-! ## Search: degenerate tree, exact-match level, BFS shape, termination -/

theorem searchLoop_nil (q : Q) : searchLoop q ([] : List (Node K Q D)) = [] := by
  rw [searchLoop]

theorem searchLoop_cons (q : Q) (n : Node K Q D) (rest : List (Node K Q D)) :
    searchLoop q (n :: rest) = leafContrib n ++ searchLoop q (rest ++ Next n q) := by
  rw [searchLoop]

/-- Searching a bare `DataNode` yields its records (also when empty:
`Leaf` then reports false and contributes nothing, which is again the
record list). -/
theorem search_dataNode (r : List D) (q : Q) :
    Search (Node.DataNode r : Node K Q D) q = r := by
  rw [Search, searchLoop_cons]
  have hnext : Next (Node.DataNode r : Node K Q D) q = [] := rfl
  rw [hnext, List.append_nil, searchLoop_nil, List.append_nil]
  cases r with
  | nil => rfl
  | cons d ds => rfl

/-- C6.  `Build(R, [])` is a single terminal `DataNode` holding all of R,
and `Search` over it returns all of R for every query. -/
theorem build_no_levels (list : List D) (q : Q) :
    Build list ([] : List (LevelSpec K Q D)) = Node.DataNode list ∧
    Search (Build list ([] : List (LevelSpec K Q D))) q = list := by
  have hb : Build list ([] : List (LevelSpec K Q D)) = Node.DataNode list := by
    rw [Build_eq_buildRec, buildRec]
  exact ⟨hb, by rw [hb]; exact search_dataNode list q⟩

/-- Searching a keyed level with the `UniqueMapNode` policy descends into
the unique child stored under the query's key, if any. -/
theorem search_mapNode_unique (es : List (K × Node K Q D)) (qk : Q → K) (q : Q) :
    Search (Node.MapNode es (MapPick.pickUnique qk)) q
      = match lookupA es (qk q) with
        | some child => Search child q
        | none => [] := by
  rw [Search, searchLoop_cons]
  have hcontrib : leafContrib (Node.MapNode es (MapPick.pickUnique qk)) = [] := rfl
  rw [hcontrib, List.nil_append, List.nil_append]
  cases h : lookupA es (qk q) with
  | some child =>
    have hnext : Next (Node.MapNode es (MapPick.pickUnique qk)) q = [child] := by
      simp only [Next, applyMapPick, h]
    rw [hnext]
    rfl
  | none =>
    have hnext : Next (Node.MapNode es (MapPick.pickUnique qk)) q = [] := by
      simp only [Next, applyMapPick, h]
    rw [hnext, searchLoop_nil]

/-- C5.  `Next` of a `UniqueMapNode`-built keyed level does one map
lookup — the one stored child when the key is present, nothing otherwise;
consequently, a keyed level built on `groupKey(d) = d` over records
`[1, 3]` searched with query 1 yields exactly the record 1, and with
query 5 yields nothing. -/
theorem uniqueMapNode_exact_match :
    (∀ (K Q D : Type) [LinearOrder K] (es : List (K × Node K Q D))
        (qk : Q → K) (q : Q),
      Next (Node.MapNode es (MapPick.pickUnique qk)) q
        = (match lookupA es (qk q) with
           | some child => [child]
           | none => [])) ∧
    Search (Build [(1 : Int), 3] [(UniqueMapNode id id : LevelSpec Int Int Int)]) 1 = [1] ∧
    Search (Build [(1 : Int), 3] [(UniqueMapNode id id : LevelSpec Int Int Int)]) 5 = [] := by
  refine ⟨?_, ?_, ?_⟩
  · intro K Q D _ es qk q
    cases h : lookupA es (qk q) <;> simp [Next, applyMapPick, h]
  · have hb : Build [(1 : Int), 3] [(UniqueMapNode id id : LevelSpec Int Int Int)]
        = Node.MapNode [(1, Node.DataNode [1]), (3, Node.DataNode [3])]
            (MapPick.pickUnique id) := by
      rw [Build_eq_buildRec]
      rfl
    rw [hb, search_mapNode_unique]
    have hlk : lookupA [((1 : Int), (Node.DataNode [(1 : Int)] : Node Int Int Int)),
        (3, Node.DataNode [3])] (id 1) = some (Node.DataNode [1]) := rfl
    rw [hlk]
    exact search_dataNode [1] 1
  · have hb : Build [(1 : Int), 3] [(UniqueMapNode id id : LevelSpec Int Int Int)]
        = Node.MapNode [(1, Node.DataNode [1]), (3, Node.DataNode [3])]
            (MapPick.pickUnique id) := by
      rw [Build_eq_buildRec]
      rfl
    rw [hb, search_mapNode_unique]
    rfl

/-- Non-strict form: a whole layer's children weigh no more than the
layer. -/
theorem sizeL_flatMap_next_le (q : Q) (l : List (Node K Q D)) :
    sizeL (l.flatMap fun n => Next n q) ≤ sizeL l := by
  induction l with
  | nil => simp [sizeL]
  | cons n rest ih =>
    rw [List.flatMap_cons, sizeL_append, sizeL_cons]
    have := sizeL_Next_lt n q
    omega

/-- Strict form for a nonempty layer. -/
theorem sizeL_flatMap_next_lt (q : Q) (n : Node K Q D) (rest : List (Node K Q D)) :
    sizeL ((n :: rest).flatMap fun m => Next m q) < sizeL (n :: rest) := by
  rw [List.flatMap_cons, sizeL_append, sizeL_cons]
  have h1 := sizeL_Next_lt n q
  have h2 := sizeL_flatMap_next_le q rest
  omega

/-- Level-order reformulation of the traversal: drain a whole layer's
leaf contributions, then recurse on the concatenation of every node's
children. -/
def levelSearch (q : Q) : List (Node K Q D) → List D
  | [] => []
  | n :: rest =>
    ((n :: rest).flatMap leafContrib)
      ++ levelSearch q ((n :: rest).flatMap fun m => Next m q)
termination_by l => sizeL l
decreasing_by
  exact sizeL_flatMap_next_lt q n rest

theorem levelSearch_nil (q : Q) : levelSearch q ([] : List (Node K Q D)) = [] := by
  rw [levelSearch]

theorem levelSearch_cons (q : Q) (n : Node K Q D) (rest : List (Node K Q D)) :
    levelSearch q (n :: rest)
      = ((n :: rest).flatMap leafContrib)
        ++ levelSearch q ((n :: rest).flatMap fun m => Next m q) := by
  rw [levelSearch]

/-- The leaf record lists encountered by the queue traversal, one entry
per dequeued leaf, in dequeue order. -/
def bfsLeaves (q : Q) : List (Node K Q D) → List (List D)
  | [] => []
  | n :: rest =>
    (if (Leaf n).2 then [(Leaf n).1] else []) ++ bfsLeaves q (rest ++ Next n q)
termination_by l => sizeL l
decreasing_by
  have h1 := sizeL_Next_lt n q
  rw [sizeL_append, sizeL_cons]
  omega

theorem bfsLeaves_nil (q : Q) : bfsLeaves q ([] : List (Node K Q D)) = [] := by
  rw [bfsLeaves]

theorem bfsLeaves_cons (q : Q) (n : Node K Q D) (rest : List (Node K Q D)) :
    bfsLeaves q (n :: rest)
      = (if (Leaf n).2 then [(Leaf n).1] else []) ++ bfsLeaves q (rest ++ Next n q) := by
  rw [bfsLeaves]

/-- Peeling a prefix off the queue: its leaf contributions come first and
its children are enqueued behind the rest, in order. -/
theorem searchLoop_append (q : Q) :
    ∀ (L₁ L₂ : List (Node K Q D)),
      searchLoop q (L₁ ++ L₂)
        = L₁.flatMap leafContrib
          ++ searchLoop q (L₂ ++ L₁.flatMap fun m => Next m q) := by
  intro L₁
  induction L₁ with
  | nil =>
    intro L₂
    simp
  | cons n r ih =>
    intro L₂
    rw [List.cons_append, searchLoop_cons, List.append_assoc, ih (L₂ ++ Next n q),
      List.flatMap_cons, List.flatMap_cons]
    simp [List.append_assoc]

/-- The FIFO queue traversal visits the tree in level order. -/
theorem searchLoop_eq_levelSearch (q : Q) (L : List (Node K Q D)) :
    searchLoop q L = levelSearch q L := by
  suffices h : ∀ (fuel : Nat) (L : List (Node K Q D)), sizeL L ≤ fuel →
      searchLoop q L = levelSearch q L from h (sizeL L) L (Nat.le_refl _)
  intro fuel
  induction fuel with
  | zero =>
    intro L hL
    cases L with
    | nil => rw [searchLoop_nil, levelSearch_nil]
    | cons n rest =>
      exfalso
      have := sizeN_pos n
      rw [sizeL_cons] at hL
      omega
  | succ fuel ih =>
    intro L hL
    cases L with
    | nil => rw [searchLoop_nil, levelSearch_nil]
    | cons n rest =>
      have hstep : searchLoop q (n :: rest)
          = (n :: rest).flatMap leafContrib
            ++ searchLoop q ((n :: rest).flatMap fun m => Next m q) := by
        have := searchLoop_append q (n :: rest) []
        simpa using this
      rw [hstep, levelSearch_cons,
        ih ((n :: rest).flatMap fun m => Next m q)
          (by have := sizeL_flatMap_next_lt q n rest; omega)]

/-- The traversal result is the concatenation of the dequeued leaves'
record lists, one block per reachable leaf, in dequeue order — in
particular no deduplication happens. -/
theorem searchLoop_eq_flatten_bfsLeaves (q : Q) (L : List (Node K Q D)) :
    searchLoop q L = (bfsLeaves q L).flatten := by
  suffices h : ∀ (fuel : Nat) (L : List (Node K Q D)), sizeL L ≤ fuel →
      searchLoop q L = (bfsLeaves q L).flatten from h (sizeL L) L (Nat.le_refl _)
  intro fuel
  induction fuel with
  | zero =>
    intro L hL
    cases L with
    | nil => rw [searchLoop_nil, bfsLeaves_nil]; rfl
    | cons n rest =>
      exfalso
      have := sizeN_pos n
      rw [sizeL_cons] at hL
      omega
  | succ fuel ih =>
    intro L hL
    cases L with
    | nil => rw [searchLoop_nil, bfsLeaves_nil]; rfl
    | cons n rest =>
      rw [searchLoop_cons, bfsLeaves_cons, List.flatten_append,
        ih (rest ++ Next n q)
          (by have := sizeL_Next_lt n q; rw [sizeL_append]; rw [sizeL_cons] at hL; omega)]
      congr 1
      unfold leafContrib
      split
      · simp
      · simp

/-- C8.  `Search` is the FIFO breadth-first traversal seeded with the
root: it drains the tree level by level (left conjunct), and its result
is the concatenation of the record lists of the dequeued leaves, one
block per reachable leaf in dequeue order, with no deduplication (right
conjunct: a record reachable through two distinct leaves appears once
per leaf). -/
theorem search_bfs_no_dedup (root : Node K Q D) (q : Q) :
    Search root q = levelSearch q [root] ∧
    Search root q = (bfsLeaves q [root]).flatten :=
  ⟨searchLoop_eq_levelSearch q [root], searchLoop_eq_flatten_bfsLeaves q [root]⟩

/-- C9.  On any tree produced by `Build` (whose selection policies are
the total library ones) the unbounded search loop terminates within
`sizeN` steps, returning a result list — never a failure; a query
matching nothing just makes that list empty. -/
theorem search_terminates_on_build (list : List D)
    (specs : List (LevelSpec K Q D)) (q : Q) :
    searchStepFuel q (sizeN (Build list specs)) [Build list specs] []
      = some (Search (Build list specs) q) := by
  have h := searchStepFuel_some q (sizeN (Build list specs)) [Build list specs] []
    (by rw [sizeL_cons]; simp [sizeL])
  simpa [Search] using h

/-! ## Layer count (claim C7) -/

mutual
/-- Every root-to-leaf path of the tree, as (number of nodes on the path,
whether it ends at a `DataNode`).  A childless level node ends its own
path (and is not a `DataNode`). -/
def pathEnds : Node K Q D → List (Nat × Bool)
  | .DataNode _ => [(1, true)]
  | .SortedNode es _ => if es.isEmpty then [(1, false)] else pathEndsE es
  | .MapNode es _ => if es.isEmpty then [(1, false)] else pathEndsP es
def pathEndsE : List (ListItem K (Node K Q D)) → List (Nat × Bool)
  | [] => []
  | e :: es => ((pathEnds e.val).map fun pb => (pb.1 + 1, pb.2)) ++ pathEndsE es
def pathEndsP : List (K × Node K Q D) → List (Nat × Bool)
  | [] => []
  | p :: ps => ((pathEnds p.2).map fun pb => (pb.1 + 1, pb.2)) ++ pathEndsP ps
end

theorem pathEndsE_eq (es : List (ListItem K (Node K Q D))) :
    pathEndsE es = es.flatMap fun e => (pathEnds e.val).map fun pb => (pb.1 + 1, pb.2) := by
  induction es with
  | nil => rfl
  | cons e es ih => rw [pathEndsE, ih, List.flatMap_cons]

theorem pathEndsP_eq (ps : List (K × Node K Q D)) :
    pathEndsP ps = ps.flatMap fun p => (pathEnds p.2).map fun pb => (pb.1 + 1, pb.2) := by
  induction ps with
  | nil => rfl
  | cons p ps ih => rw [pathEndsP, ih, List.flatMap_cons]

theorem exists_of_mem_keysOf {key : D → K} {l : List D} {k : K}
    (h : k ∈ keysOf key l) : ∃ d ∈ l, key d = k := by
  induction l with
  | nil => cases h
  | cons a ds ih =>
    rw [keysOf] at h
    rcases List.mem_cons.mp h with rfl | h'
    · exact ⟨a, by simp, rfl⟩
    · obtain ⟨d, hd, hk⟩ := ih (List.mem_of_mem_filter h')
      exact ⟨d, by simp [hd], hk⟩

theorem keysOf_ne_nil (key : D → K) {l : List D} (h : l ≠ []) :
    keysOf key l ≠ [] := by
  cases l with
  | nil => exact absurd rfl h
  | cons d ds => rw [keysOf]; exact List.cons_ne_nil _ _

theorem sortedGroups_ne_nil {gk : D → K} {list : List D} (h : list ≠ []) :
    sortedGroups gk list ≠ [] := by
  rw [sortedGroups]
  intro hcon
  have hlen := congrArg List.length hcon
  rw [List.length_map, (List.perm_insertionSort _ _).length_eq] at hlen
  exact keysOf_ne_nil gk h (List.eq_nil_of_length_eq_zero hlen)

theorem sortedGroups_val_ne_nil {gk : D → K} {list : List D}
    {e : ListItem K (List D)} (h : e ∈ sortedGroups gk list) : e.val ≠ [] := by
  rw [sortedGroups] at h
  obtain ⟨k, hk, rfl⟩ := List.mem_map.mp h
  have hk' : k ∈ keysOf gk list := (List.perm_insertionSort _ _).mem_iff.mp hk
  obtain ⟨d, hd, hkd⟩ := exists_of_mem_keysOf hk'
  exact List.ne_nil_of_mem (List.mem_filter.mpr ⟨hd, by simp [hkd]⟩)

theorem groupBy_ne_nil {gk : D → K} {list : List D} (h : list ≠ []) :
    groupBy gk list ≠ [] := by
  rw [groupBy]
  intro hcon
  have hlen := congrArg List.length hcon
  rw [List.length_map] at hlen
  exact keysOf_ne_nil gk h (List.eq_nil_of_length_eq_zero hlen)

theorem groupBy_snd_ne_nil {gk : D → K} {list : List D}
    {p : K × List D} (h : p ∈ groupBy gk list) : p.2 ≠ [] := by
  rw [groupBy] at h
  obtain ⟨k, hk, rfl⟩ := List.mem_map.mp h
  obtain ⟨d, hd, hkd⟩ := exists_of_mem_keysOf hk
  exact List.ne_nil_of_mem (List.mem_filter.mpr ⟨hd, by simp [hkd]⟩)

/-- On nonempty records, every root-to-leaf path of the recursive build
has one node per level specification plus the terminal `DataNode`. -/
theorem pathEnds_buildRec (specs : List (LevelSpec K Q D)) :
    ∀ list : List D, list ≠ [] →
      ∀ pb ∈ pathEnds (buildRec specs list), pb = (specs.length + 1, true) := by
  induction specs with
  | nil =>
    intro list _ pb hpb
    rw [buildRec, pathEnds] at hpb
    simpa using List.mem_singleton.mp hpb
  | cons s ss ih =>
    intro list hne pb hpb
    cases s with
    | sortedSpec gk pk =>
      rw [buildRec, pathEnds] at hpb
      rw [if_neg (by
        simp only [List.isEmpty_eq_true, List.map_eq_nil_iff]
        exact sortedGroups_ne_nil hne)] at hpb
      rw [pathEndsE_eq, List.flatMap_map] at hpb
      obtain ⟨e, he, hpb'⟩ := List.mem_flatMap.mp hpb
      obtain ⟨pb', hpb'', rfl⟩ := List.mem_map.mp hpb'
      have := ih e.val (sortedGroups_val_ne_nil he) pb' hpb''
      rw [this]
      rfl
    | mapSpec gk pk =>
      rw [buildRec, pathEnds] at hpb
      rw [if_neg (by
        simp only [List.isEmpty_eq_true, List.map_eq_nil_iff]
        exact groupBy_ne_nil hne)] at hpb
      rw [pathEndsP_eq, List.flatMap_map] at hpb
      obtain ⟨e, he, hpb'⟩ := List.mem_flatMap.mp hpb
      obtain ⟨pb', hpb'', rfl⟩ := List.mem_map.mp hpb'
      have := ih e.2 (groupBy_snd_ne_nil he) pb' hpb''
      rw [this]
      rfl

/-- C7 counterexample: on an empty record list with one (ordered) level
specification, the built tree is a single childless level node — its one
root-to-leaf path has 1 node, not `len(levelSpecs) + 1 = 2`, and does not
end at a Record Node. -/
theorem build_layers_counterexample :
    ((1 : Nat), false) ∈ pathEnds (Build ([] : List Int)
        [(LevelSpec.sortedSpec id (SortedPick.pickGE id) : LevelSpec Int Int Int)]) ∧
    (((1 : Nat), false) ≠
      (List.length [(LevelSpec.sortedSpec id (SortedPick.pickGE id)
        : LevelSpec Int Int Int)] + 1, true)) := by
  constructor
  · have hb : Build ([] : List Int)
        [(LevelSpec.sortedSpec id (SortedPick.pickGE id) : LevelSpec Int Int Int)]
        = Node.SortedNode [] (SortedPick.pickGE id) := by
      rw [Build_eq_buildRec]
      rfl
    rw [hb, pathEnds]
    simp
  · simp

/-- C7 (amended with the precondition that the record list is nonempty):
the tree returned by `Build` then has exactly `len(levelSpecs) + 1`
layers — every root-to-leaf path passes through one node per
specification and ends at a Record Node.  (On an empty record list with
at least one specification the root is a childless level node, see the
counterexample.) -/
theorem build_layers (list : List D) (specs : List (LevelSpec K Q D))
    (hne : list ≠ []) :
    ∀ pb ∈ pathEnds (Build list specs), pb = (specs.length + 1, true) := by
  rw [Build_eq_buildRec]
  exact pathEnds_buildRec specs list hne

/-- Witness for C7: the two-record keyed-level tree has every path of
length 2 ending at a Record Node. -/
theorem build_layers_witness :
    ([(1 : Int), 3] ≠ ([] : List Int)) ∧
    ((2 : Nat), true) ∈ pathEnds (Build [(1 : Int), 3]
      [(UniqueMapNode id id : LevelSpec Int Int Int)]) ∧
    ((2 : Nat), true) = (List.length [(UniqueMapNode id id
      : LevelSpec Int Int Int)] + 1, true) := by
  have hb : Build [(1 : Int), 3] [(UniqueMapNode id id : LevelSpec Int Int Int)]
      = Node.MapNode [(1, Node.DataNode [1]), (3, Node.DataNode [3])]
          (MapPick.pickUnique id) := by
    rw [Build_eq_buildRec]
    rfl
  have hmem : ((2 : Nat), true) ∈ pathEnds (Build [(1 : Int), 3]
      [(UniqueMapNode id id : LevelSpec Int Int Int)]) := by
    rw [hb, pathEnds]
    rw [if_neg (by simp)]
    rw [pathEndsP, pathEndsP, pathEndsP, pathEnds, pathEnds]
    simp
  exact ⟨by simp, hmem,
    build_layers [(1 : Int), 3] [(UniqueMapNode id id : LevelSpec Int Int Int)]
      (by simp) ((2 : Nat), true) hmem⟩

end Tobiichi
